import Mathlib

/-!
Verification development for the EduComic generator core (`server.py`).

The Python source is shallowly embedded:
* text is `List Char` (ASCII fragment of Python's Unicode semantics: the
  regex classes `\s` and `\d` and `str.strip()` are modelled over the ASCII
  whitespace/digit characters, which is all the program's markers use);
* `re.split(r"(?=\[Page\s+\d+\])", text)` is modelled by cutting the
  character list at every position where the marker pattern matches;
* Python dicts (insertion ordered, overwrite-in-place) are modelled by
  association lists with an `dictInsert` that overwrites in place;
* the external Gemini calls, the image decoder and the filesystem reads are
  modelled as oracle functions supplied as parameters, so that every
  possible external behaviour is quantified over;
* `PIL` images are modelled by their geometry (width/height), and the
  composited canvas by its dimensions plus the ordered list of paste
  operations `(image, x, y)` performed on it.
-/

/-- Python's `\s` over ASCII: the whitespace characters recognised by the
`[Page N]` marker regex and by `str.strip()`. -/
def pyWhitespace (c : Char) : Bool :=
  c = ' ' || c = '\t' || c = '\n' || c = '\r' || c = '\x0b' || c = '\x0c'

/-- `str.strip()`: drop whitespace from both ends. -/
def pyStrip (cs : List Char) : List Char :=
  ((cs.dropWhile pyWhitespace).reverse.dropWhile pyWhitespace).reverse

/-- Matching of `\s+(\d+)\]` — the part of the marker regex following the
literal `[Page` — at the head of `t`.  Returns the digit group and the
residue after the closing bracket.  Greedy matching is equivalent to
maximal munch here because whitespace, digits and `]` are pairwise
disjoint character classes. -/
def matchMarkerTail (t : List Char) : Option (List Char × List Char) :=
  if t.takeWhile pyWhitespace = [] then none
  else
    let r1 := t.dropWhile pyWhitespace
    if r1.takeWhile Char.isDigit = [] then none
    else
      match r1.dropWhile Char.isDigit with
      | ']' :: rest => some (r1.takeWhile Char.isDigit, rest)
      | _ => none

/-- Matching of the full regex `\[Page\s+(\d+)\]` at the head of `cs`
(Python `re.match`): digit group and residue on success. -/
def matchMarker (cs : List Char) : Option (List Char × List Char) :=
  match cs with
  | '[' :: 'P' :: 'a' :: 'g' :: 'e' :: t => matchMarkerTail t
  | _ => none

/-- `markerViable cs` holds when `cs` is a prefix of some string the marker
regex matches, i.e. a marker match starting at `cs`'s first character could
still succeed given more input.  Used to state "no embedded marker". -/
def viableTail (t : List Char) : Bool :=
  match t with
  | [] => true
  | _ =>
    if t.takeWhile pyWhitespace = [] then false
    else
      let r1 := t.dropWhile pyWhitespace
      match r1 with
      | [] => true
      | _ =>
        if r1.takeWhile Char.isDigit = [] then false
        else
          match r1.dropWhile Char.isDigit with
          | [] => true
          | ']' :: _ => true
          | _ => false

/-- Viability of a whole candidate marker start (see `viableTail`). -/
def markerViable (cs : List Char) : Bool :=
  match cs with
  | [] => true
  | ['['] => true
  | ['[', 'P'] => true
  | ['[', 'P', 'a'] => true
  | ['[', 'P', 'a', 'g'] => true
  | '[' :: 'P' :: 'a' :: 'g' :: 'e' :: t => viableTail t
  | _ => false

/-- Worker for the lookahead split: cut the text at every position where
the marker pattern matches, keeping the marker with the following block
(Python `re.split(r"(?=\[Page\s+\d+\])", text)`). `acc` holds the current
block's characters in reverse. -/
def splitAux : List Char → List Char → List (List Char)
  | acc, [] => [acc.reverse]
  | acc, c :: rest =>
    if (matchMarker (c :: rest)).isSome then
      acc.reverse :: splitAux [c] rest
    else
      splitAux (c :: acc) rest

/-- The lookahead split of the full text. -/
def reSplitMarkers (text : List Char) : List (List Char) :=
  splitAux [] text

/-- Python dict assignment `d[k] = v`: overwrite in place, else append. -/
def dictInsert (k v : List Char) : List (List Char × List Char) → List (List Char × List Char)
  | [] => [(k, v)]
  | (k', v') :: rest =>
    if k' = k then (k, v) :: rest else (k', v') :: dictInsert k v rest

/-- Python dict lookup `d.get(k)` / `k in d`. -/
def dictLookup (k : List Char) : List (List Char × List Char) → Option (List Char)
  | [] => none
  | (k', v) :: rest => if k' = k then some v else dictLookup k rest

/-- The literal string `"page"` used to build script keys. -/
def pageTag : List Char := ['p', 'a', 'g', 'e']

/-- `split_pages` from `server.py`: lookahead-split the text at `[Page N]`
markers, strip each block, skip empty blocks, and key the surviving blocks
by `"page" + <raw digit group>` (last write wins via dict assignment). -/
def split_pages (text : List Char) : List (List Char × List Char) :=
  (reSplitMarkers text).foldl
    (fun pages block =>
      let b := pyStrip block
      if b = [] then pages
      else
        match matchMarker b with
        | some (d, _) => dictInsert (pageTag ++ d) b pages
        | none => pages)
    []

/-- The key/value pair a single block contributes to the page dict, if
any: the stripped block keyed by `"page" + digits` of its leading marker. -/
def blockEntry (block : List Char) : Option (List Char × List Char) :=
  let b := pyStrip block
  if b = [] then none
  else
    match matchMarker b with
    | some (d, _) => some (pageTag ++ d, b)
    | none => none

/-- The ordered key/value contributions of all blocks of a text. -/
def splitEntries (text : List Char) : List (List Char × List Char) :=
  (reSplitMarkers text).filterMap blockEntry

/-- First-biased choice on options. -/
def orO {α : Type} (a b : Option α) : Option α :=
  match a with
  | some x => some x
  | none => b

/-- Numeric value of a digit group (for relating raw keys to page indices). -/
def digitsVal (ds : List Char) : Nat :=
  ds.foldl (fun a c => 10 * a + (c.toNat - 48)) 0

/-- The page index a script key denotes: numeric value of what follows the
`"page"` tag. -/
def keyIndex (k : List Char) : Nat :=
  digitsVal (k.drop 4)

/-- Decidable check that a block's leading marker (if any) carries a page
number in `1..n`. -/
def markerInRange (n : Nat) (block : List Char) : Bool :=
  match matchMarker (pyStrip block) with
  | some (d, _) => decide (1 ≤ digitsVal d) && decide (digitsVal d ≤ n)
  | none => true

/-- ASCII digit character for `d ≤ 9` (Python's decimal rendering). -/
def digitChar (d : Nat) : Char :=
  Char.ofNat (48 + d)

/-- Fuel-driven decimal rendering worker (fuel `n + 1` always suffices). -/
def natStrGo : Nat → Nat → List Char → List Char
  | 0, _, acc => acc
  | fuel + 1, n, acc =>
    if n = 0 then acc else natStrGo fuel (n / 10) (digitChar (n % 10) :: acc)

/-- Python `str(n)` for a natural number: minimal decimal, no leading zero. -/
def natStr (n : Nat) : List Char :=
  if n = 0 then ['0'] else natStrGo (n + 1) n []

/-- The key `f"page{i}"` the generation loop looks up for page `i`. -/
def pageKey (i : Nat) : List Char :=
  pageTag ++ natStr i

/-- Python `s.replace(" ", "_")` (single-character replacement). -/
def replaceSpaces (cs : List Char) : List Char :=
  cs.map (fun c => if c = ' ' then '_' else c)

/-- The per-page intermediate file path
`os.path.join(OUTPUT_DIR, f"comic_{theme[:5]}_{i}.png".replace(" ", "_"))`. -/
def pageFilePath (theme : List Char) (i : Nat) : List Char :=
  "generated_comics/".toList ++
    replaceSpaces ("comic_".toList ++ theme.take 5 ++ '_' :: natStr i ++ ".png".toList)

/-- The `AgeGroup` enum of `server.py`. -/
inductive AgeGroup where
  | toddler
  | kid
  | teen
  deriving DecidableEq

/-- The `.value` string of each `AgeGroup` member. -/
def AgeGroup.value : AgeGroup → List Char
  | .toddler => "2-5".toList
  | .kid => "6-10".toList
  | .teen => "11+".toList

/-- The final artifact path
`os.path.join(OUTPUT_DIR, f"final_{theme[:10]}_{age_group.value}.png".replace(" ", "_"))`. -/
def finalPath (theme : List Char) (ag : AgeGroup) : List Char :=
  "generated_comics/".toList ++
    replaceSpaces ("final_".toList ++ theme.take 10 ++ '_' :: ag.value ++ ".png".toList)

/-- Geometry of a decoded `PIL` image. -/
structure PILImage where
  width : Nat
  height : Nat
  deriving DecidableEq

/-- The canvas built by `combine_images_vertical`: its dimensions and the
ordered paste operations `(image, x, y)` performed on it. -/
structure Canvas where
  width : Nat
  height : Nat
  pastes : List (PILImage × Nat × Nat)
  deriving DecidableEq

/-- `[f a for a in as]` where `f` may raise: first failure aborts. -/
def traverseOption {α β : Type} (f : α → Option β) : List α → Option (List β)
  | [] => some []
  | a :: as =>
    match f a, traverseOption f as with
    | some b, some bs => some (b :: bs)
    | _, _ => none

/-- The paste accumulation of `combine_images_vertical`: paste each image
at `(0, y_offset)` and advance `y_offset` by its height. -/
def pasteFold (images : List PILImage) : List (PILImage × Nat × Nat) × Nat :=
  images.foldl (fun acc img => (acc.1 ++ [(img, 0, acc.2)], acc.2 + img.height)) ([], 0)

/-- The canvas `combine_images_vertical` builds from successfully opened
images: width `max(widths)`, height `sum(heights)`, cumulative pastes. -/
def combineCanvas (images : List PILImage) : Canvas :=
  { width := (images.map PILImage.width).foldl Nat.max 0
    height := (images.map PILImage.height).sum
    pastes := (pasteFold images).1 }

/-- `combine_images_vertical(image_paths, output_path)`.  `loadImage`
models `Image.open` on the filesystem (`none` = raises).  Returns the
Python return value together with the list of file writes performed
(path, canvas).  All exceptions inside the `try` are caught and turned
into `None`; the empty-input check precedes the `try`. -/
def combine_images_vertical (loadImage : List Char → Option PILImage)
    (image_paths : List (List Char)) (output_path : List Char) :
    Option (List Char) × List (List Char × Canvas) :=
  if image_paths = [] then (none, [])
  else
    match traverseOption loadImage image_paths with
    | none => (none, [])
    | some images => (some output_path, [(output_path, combineCanvas images)])

/-- One observable step of the generation loop: a request sent to the image
model (page index, prompt text, optional grounding image), or a successful
render appended to the session. -/
inductive GenEvent (Img : Type) where
  | request (page : Nat) (prompt : List Char) (grounding : Option Img)
  | success (page : Nat) (img : Img)
  deriving DecidableEq

/-- Loop state: `image_files` (saved page file paths), `generated_pages_pil`
(decoded images in render order), and the event trace. -/
structure GenState (Img : Type) where
  imageFiles : List (List Char)
  pils : List Img
  events : List (GenEvent Img)
  deriving DecidableEq

/-- The initial loop state (both lists empty). -/
def initGenState (Img : Type) : GenState Img :=
  { imageFiles := [], pils := [], events := [] }

/-- First response part carrying inline image data. -/
def firstInline {Bytes : Type} (parts : List (Option Bytes)) : Option Bytes :=
  parts.findSome? id

/-- The body of the per-page loop in `generate_comic_endpoint` for page `i`:
skip when `f"page{i}"` is absent from the script; otherwise send the page
prompt plus (when any page already rendered) `generated_pages_pil[-1]` as
grounding, scan the response for the first inline-data part and decode it;
on transport error, absent image part, or decode error the state is left
unchanged (the page is skipped); on success the saved file path and the
decoded image are appended. -/
def pageStep {Img Bytes : Type} (pages : List (List Char × List Char))
    (send : Nat → Except (List Char) (List (Option Bytes)))
    (decodeImg : Bytes → Option Img) (theme : List Char)
    (st : GenState Img) (i : Nat) : GenState Img :=
  match dictLookup (pageKey i) pages with
  | none => st
  | some pagePrompt =>
    let grounding := st.pils.getLast?
    let st' := { st with
      events := st.events ++ [GenEvent.request i pagePrompt grounding] }
    match send i with
    | .error _ => st'
    | .ok parts =>
      match firstInline parts with
      | none => st'
      | some bytes =>
        match decodeImg bytes with
        | none => st'
        | some img =>
          { st' with
            imageFiles := st'.imageFiles ++ [pageFilePath theme i]
            pils := st'.pils ++ [img]
            events := st'.events ++ [GenEvent.success i img] }

/-- The whole per-page loop `for i in range(1, num_pages + 1)`. -/
def runGenLoop {Img Bytes : Type} (pages : List (List Char × List Char))
    (send : Nat → Except (List Char) (List (Option Bytes)))
    (decodeImg : Bytes → Option Img) (theme : List Char) (numPages : Nat) :
    GenState Img :=
  (List.range' 1 numPages).foldl (pageStep pages send decodeImg theme) (initGenState Img)

/-- External collaborators of `generate_comic_endpoint`: the plot-text
call (`.error` = the call raised / `.text` access failed, carrying the
exception text), the per-page `chat.send_message` responses, the byte
decoder, and `Image.open` at composition time. -/
structure EndpointOracles (Img Bytes : Type) where
  plotCall : Except (List Char) (List Char)
  send : Nat → Except (List Char) (List (Option Bytes))
  decodeImg : Bytes → Option Img
  loadImage : List Char → Option PILImage

/-- Observable outcome of one `generate_comic_endpoint` request:
the HTTP response (`.error detail` = `HTTPException(500, detail)`,
`.ok path` = `FileResponse(path)`), whether the image chat session was
created, the generation-loop event trace, and the file writes performed
by the compositing step. -/
structure EndpointResult (Img : Type) where
  respOutcome : Except (List Char) (List Char)
  sessionCreated : Bool
  genEvents : List (GenEvent Img)
  combineWrites : List (List Char × Canvas)

/-- The detail string of the empty-result failure. -/
def failMsg : List Char :=
  "Failed to generate any images.".toList

/-- `generate_comic_endpoint` (the outer `except Exception` converts any
raised error into an `HTTPException(500, str(e))`; the message content is
preserved in the model).  Note the source ignores the return value of
`combine_images_vertical` and returns `FileResponse(final_path)`
unconditionally once at least one page rendered. -/
def generate_comic_endpoint {Img Bytes : Type} (O : EndpointOracles Img Bytes)
    (theme _context : List Char) (ageGroup : AgeGroup) (numPages : Nat) :
    EndpointResult Img :=
  match O.plotCall with
  | .error msg =>
    { respOutcome := .error msg, sessionCreated := false
      genEvents := [], combineWrites := [] }
  | .ok plotText =>
    let pages := split_pages plotText
    let st := runGenLoop pages O.send O.decodeImg theme numPages
    if st.imageFiles = [] then
      { respOutcome := .error failMsg, sessionCreated := true
        genEvents := st.events, combineWrites := [] }
    else
      let fp := finalPath theme ageGroup
      let comb := combine_images_vertical O.loadImage st.imageFiles fp
      { respOutcome := .ok fp, sessionCreated := true
        genEvents := st.events, combineWrites := comb.2 }

/-- The grounding discipline the spec claims: scanning the event trace in
order with `last` = the most recently rendered image (`none` initially),
every request carries exactly `last` as its grounding, and only successes
update `last`. -/
def GroundedFrom {Img : Type} (last : Option Img) : List (GenEvent Img) → Prop
  | [] => True
  | .request _ _ g :: es => g = last ∧ GroundedFrom last es
  | .success _ img :: es => GroundedFrom (some img) es

/-- The most recent rendered image after scanning `es` starting from `last`. -/
def lastAfter {Img : Type} (last : Option Img) : List (GenEvent Img) → Option Img
  | [] => last
  | .request _ _ _ :: es => lastAfter last es
  | .success _ img :: es => lastAfter (some img) es

/-- Decidable well-formedness of one block for the idempotence property: a
block is whitespace-only, or its stripped form starts with a `[Page N]`
marker and no later position of it could start a marker (so re-splitting
the concatenated stripped blocks cuts exactly at the block boundaries). -/
def interiorNonViable (v : List Char) : Bool :=
  (List.range v.length).all (fun p => decide (p = 0) || !markerViable (v.drop p))

/-- A block is blank after stripping, or marker-led with no embedded
marker start. -/
def goodBlock (block : List Char) : Bool :=
  let v := pyStrip block
  v = [] || ((matchMarker v).isSome && interiorNonViable v)

/-- The ordered key list of a text's page script. -/
def keyList (text : List Char) : List (List Char) :=
  (splitEntries text).map Prod.fst

/-- Folding dict assignment over a list of key/value contributions. -/
def insertEntries (es : List (List Char × List Char))
    (d : List (List Char × List Char)) : List (List Char × List Char) :=
  es.foldl (fun d e => dictInsert e.1 e.2 d) d

/-- The value of the last contribution with key `k`, if any. -/
def lastEntryValue (k : List Char) (es : List (List Char × List Char)) :
    Option (List Char) :=
  ((es.filter (fun e => decide (e.1 = k))).getLast?).map Prod.snd

/-- Reference description of the compositor's paste sequence: paste each
image at `x = 0` and at the running vertical offset. -/
def buildPastes (y : Nat) : List PILImage → List (PILImage × Nat × Nat)
  | [] => []
  | img :: rest => (img, 0, y) :: buildPastes (y + img.height) rest

/-- Test oracle: every page's image request fails in transport. -/
def exSendFail : Nat → Except (List Char) (List (Option Nat)) :=
  fun _ => .error "transport error".toList

/-- Test oracle: page `i`'s request returns one inline part with payload `i`. -/
def exSendOK : Nat → Except (List Char) (List (Option Nat)) :=
  fun i => .ok [some i]

/-- Endpoint fixture: the plot text has no page markers, so no page can
render. -/
def exOracleNoPages : EndpointOracles Nat Nat :=
  { plotCall := .ok "no markers here".toList, send := exSendOK
    decodeImg := some, loadImage := fun _ => some ⟨7, 9⟩ }

/-- Endpoint fixture: a one-page script that renders successfully. -/
def exOracleOnePage : EndpointOracles Nat Nat :=
  { plotCall := .ok "[Page 1] A".toList, send := exSendOK
    decodeImg := some, loadImage := fun _ => some ⟨3, 4⟩ }

/-- Endpoint fixture: one page renders, but every intermediate file is
unreadable at composition time (`Image.open` raises). -/
def exOracleBadFS : EndpointOracles Nat Nat :=
  { plotCall := .ok "[Page 1] A".toList, send := exSendOK
    decodeImg := some, loadImage := fun _ => none }

/-- Endpoint fixture: the plot call returns empty text. -/
def exOracleEmptyPlot : EndpointOracles Nat Nat :=
  { plotCall := .ok [], send := exSendOK
    decodeImg := some, loadImage := fun _ => some ⟨1, 1⟩ }

/-- Compositor fixture: the three images of the spec's worked example. -/
def exImages : List PILImage :=
  [⟨50, 100⟩, ⟨80, 200⟩, ⟨60, 150⟩]

/-- Compositor fixture: the three intermediate file paths. -/
def exPaths : List (List Char) :=
  ["a.png".toList, "b.png".toList, "c.png".toList]

/-- Compositor fixture: a filesystem holding the three example images. -/
def exLoad : List Char → Option PILImage :=
  fun p =>
    if p = "a.png".toList then some ⟨50, 100⟩
    else if p = "b.png".toList then some ⟨80, 200⟩
    else if p = "c.png".toList then some ⟨60, 150⟩
    else none

theorem dropWhile_append_ne {α : Type} (p : α → Bool) (l r : List α)
    (h : l.dropWhile p ≠ []) : (l ++ r).dropWhile p = l.dropWhile p ++ r := by
  induction l with
  | nil => simp [List.dropWhile] at h
  | cons c l ih =>
    by_cases hc : p c
    · simp only [List.cons_append, List.dropWhile_cons, hc, if_true] at *
      exact ih h
    · simp only [List.cons_append, List.dropWhile_cons, hc] at *
      simp

theorem takeWhile_append_ne {α : Type} (p : α → Bool) (l r : List α)
    (h : l.dropWhile p ≠ []) : (l ++ r).takeWhile p = l.takeWhile p := by
  induction l with
  | nil => simp [List.dropWhile] at h
  | cons c l ih =>
    by_cases hc : p c
    · simp only [List.cons_append, List.dropWhile_cons, hc, if_true] at h
      simp only [List.cons_append, List.takeWhile_cons, hc, if_true]
      rw [ih h]
    · simp [List.takeWhile_cons, hc]

theorem takeWhile_ne_nil_head {α : Type} (p : α → Bool) (c : α) (l : List α)
    (h : (c :: l).takeWhile p ≠ []) : p c = true := by
  by_cases hc : p c
  · exact hc
  · simp [List.takeWhile_cons, hc] at h

theorem getLast?_cons_orO {α : Type} (l : List α) : ∀ a : α,
    (a :: l).getLast? = orO l.getLast? (some a) := by
  induction l with
  | nil => intro a; simp [orO]
  | cons b l ih =>
    intro a
    rw [List.getLast?_cons_cons, ih b]
    cases l.getLast? <;> simp [orO]

theorem orO_none_right {α : Type} (a : Option α) : orO a none = a := by
  cases a <;> rfl

theorem orO_map {α β : Type} (f : α → β) (a b : Option α) :
    (orO a b).map f = orO (a.map f) (b.map f) := by
  cases a <;> rfl

theorem orO_assoc {α : Type} (a b c : Option α) :
    orO (orO a b) c = orO a (orO b c) := by
  cases a <;> rfl

theorem dictLookup_insert (k k' v : List Char) (d : List (List Char × List Char)) :
    dictLookup k (dictInsert k' v d) =
      if k' = k then some v else dictLookup k d := by
  induction d with
  | nil => simp [dictInsert, dictLookup]
  | cons e d ih =>
    obtain ⟨a, b⟩ := e
    by_cases ha : a = k'
    · subst ha
      simp only [dictInsert, if_pos rfl, dictLookup]
      by_cases hk : a = k
      · simp [hk]
      · simp [hk, dictLookup]
    · simp only [dictInsert, if_neg ha, dictLookup]
      by_cases hak : a = k
      · subst hak
        have : k' ≠ a := fun hh => ha hh.symm
        simp [this]
      · simp [hak, ih]

theorem mem_dictInsert (e : List Char × List Char) (k v : List Char)
    (d : List (List Char × List Char)) (h : e ∈ dictInsert k v d) :
    e = (k, v) ∨ e ∈ d := by
  induction d with
  | nil => simp [dictInsert] at h; simp [h]
  | cons e' d ih =>
    obtain ⟨a, b⟩ := e'
    by_cases ha : a = k
    · subst ha
      simp only [dictInsert, if_pos rfl] at h
      rcases List.mem_cons.mp h with h | h
      · exact Or.inl h
      · exact Or.inr (List.mem_cons_of_mem _ h)
    · simp only [dictInsert, if_neg ha] at h
      rcases List.mem_cons.mp h with h | h
      · exact Or.inr (by simp [h])
      · rcases ih h with h | h
        · exact Or.inl h
        · exact Or.inr (List.mem_cons_of_mem _ h)

theorem dictInsert_fresh (k v : List Char) (d : List (List Char × List Char))
    (h : dictLookup k d = none) : dictInsert k v d = d ++ [(k, v)] := by
  induction d with
  | nil => rfl
  | cons e d ih =>
    obtain ⟨a, b⟩ := e
    simp only [dictLookup] at h
    by_cases hak : a = k
    · simp [hak] at h
    · simp only [dictInsert, if_neg hak, List.cons_append]
      rw [ih (by simpa [hak] using h)]

theorem foldl_blockEntry (bs : List (List Char)) : ∀ d,
    bs.foldl
      (fun pages block =>
        let b := pyStrip block
        if b = [] then pages
        else
          match matchMarker b with
          | some (d, _) => dictInsert (pageTag ++ d) b pages
          | none => pages)
      d = insertEntries (bs.filterMap blockEntry) d := by
  induction bs with
  | nil => intro d; rfl
  | cons b bs ih =>
    intro d
    simp only [List.foldl_cons, List.filterMap_cons]
    by_cases hb : pyStrip b = []
    · simp only [blockEntry, hb, if_pos rfl]
      exact ih d
    · cases hm : matchMarker (pyStrip b) with
      | none =>
        simp only [blockEntry, hb, if_neg hb, hm]
        exact ih d
      | some dt =>
        obtain ⟨dd, t⟩ := dt
        simp only [blockEntry, hb, if_neg hb, hm]
        exact ih _

theorem split_pages_eq (text : List Char) :
    split_pages text = insertEntries (splitEntries text) [] :=
  foldl_blockEntry (reSplitMarkers text) []

theorem lookup_insertEntries (es : List (List Char × List Char)) :
    ∀ (d : List (List Char × List Char)) (k : List Char),
    dictLookup k (insertEntries es d) =
      orO (lastEntryValue k es) (dictLookup k d) := by
  induction es with
  | nil => intro d k; simp [insertEntries, lastEntryValue, orO]
  | cons e es ih =>
    intro d k
    have hstep : insertEntries (e :: es) d = insertEntries es (dictInsert e.1 e.2 d) := rfl
    rw [hstep, ih]
    have hfilter : List.filter (fun x => decide (x.1 = k)) (e :: es) =
        if e.1 = k then e :: List.filter (fun x => decide (x.1 = k)) es
        else List.filter (fun x => decide (x.1 = k)) es := by
      by_cases hk : e.1 = k <;> simp [List.filter_cons, hk]
    have hle : lastEntryValue k (e :: es) =
        orO (lastEntryValue k es) (if e.1 = k then some e.2 else none) := by
      by_cases hk : e.1 = k
      · rw [lastEntryValue, hfilter, if_pos hk, getLast?_cons_orO, orO_map,
          if_pos hk, lastEntryValue]
        rfl
      · rw [lastEntryValue, hfilter, if_neg hk, if_neg hk, orO_none_right,
          lastEntryValue]
    rw [hle, orO_assoc, dictLookup_insert]
    by_cases hk : e.1 = k
    · simp [hk, orO]
    · simp [hk, orO]

/-- Claim C7: for every input text in which the same page number appears
in more than one `[Page N]` marker block, the parsed script maps that page
number to the text of the last such block (last write wins); in fact for
every key, the stored value is exactly the value of the last block
contributing that key. -/
theorem C7_duplicate_markers_last_wins (text : List Char) (k : List Char) :
    dictLookup k (split_pages text) = lastEntryValue k (splitEntries text) := by
  rw [split_pages_eq, lookup_insertEntries]
  simp [dictLookup, orO_none_right]

theorem mem_insertEntries (es : List (List Char × List Char)) :
    ∀ (d : List (List Char × List Char)) (e : List Char × List Char),
    e ∈ insertEntries es d → e ∈ es ∨ e ∈ d := by
  induction es with
  | nil => intro d e h; exact Or.inr h
  | cons e' es ih =>
    intro d e h
    have hstep : insertEntries (e' :: es) d = insertEntries es (dictInsert e'.1 e'.2 d) := rfl
    rw [hstep] at h
    rcases ih _ e h with h | h
    · exact Or.inl (List.mem_cons_of_mem _ h)
    · rcases mem_dictInsert e e'.1 e'.2 d h with h | h
      · exact Or.inl (by simp [h])
      · exact Or.inr h

theorem mem_split_pages (text : List Char) (kv : List Char × List Char)
    (h : kv ∈ split_pages text) :
    ∃ b ∈ reSplitMarkers text, blockEntry b = some kv := by
  rw [split_pages_eq] at h
  rcases mem_insertEntries _ _ _ h with h | h
  · exact List.mem_filterMap.mp h
  · simp at h

/-- Claim C2, as stated, is false: `split_pages` never sees the requested
page count, so a text whose marker number exceeds it still yields a key.
Concretely, `split_pages "[Page 5] x"` with `pageCount = 1` produces the
key `"page5"`, which denotes page 5 ∉ {1}. -/
theorem C2_counterexample_out_of_range_key :
    ¬ (∀ kv ∈ split_pages ("[Page 5] x".toList),
        1 ≤ keyIndex kv.1 ∧ keyIndex kv.1 ≤ 1) := by
  decide

/-- Claim C2 (amended): provided every `[Page N]` marker block of the
input carries a number in `1..n` — which is what a well-formed response to
the planner's `n`-page template contains — every key of the parsed script
is `"page"` followed by digits denoting an index in `1..n`; no key outside
that range is produced. -/
theorem C2_amended_keys_in_range (text : List Char) (n : Nat)
    (h : ∀ b ∈ reSplitMarkers text, markerInRange n b = true) :
    ∀ kv ∈ split_pages text,
      kv.1.take 4 = pageTag ∧ 1 ≤ keyIndex kv.1 ∧ keyIndex kv.1 ≤ n := by
  intro kv hkv
  obtain ⟨b, hb, he⟩ := mem_split_pages text kv hkv
  have hr := h b hb
  by_cases hnil : pyStrip b = []
  · simp [blockEntry, hnil] at he
  · cases hm : matchMarker (pyStrip b) with
    | none => simp [blockEntry, hnil, hm] at he
    | some dt =>
      obtain ⟨dd, t⟩ := dt
      simp only [blockEntry, hnil, if_neg hnil, hm, if_false, Option.some.injEq] at he
      simp only [markerInRange, hm, Bool.and_eq_true, decide_eq_true_eq] at hr
      subst he
      have htake : (pageTag ++ dd).take 4 = pageTag := by simp [pageTag]
      have hdrop : (pageTag ++ dd).drop 4 = dd := by simp [pageTag]
      refine ⟨htake, ?_, ?_⟩
      · simpa [keyIndex, hdrop] using hr.1
      · simpa [keyIndex, hdrop] using hr.2

theorem C2_amended_keys_in_range_witness :
    (("page1".toList, "[Page 1] A".toList) ∈
        split_pages ("[Page 1] A [Page 2] B".toList)) ∧
    (("page1".toList).take 4 = pageTag ∧
      1 ≤ keyIndex ("page1".toList) ∧ keyIndex ("page1".toList) ≤ 2) :=
  ⟨by decide,
    C2_amended_keys_in_range ("[Page 1] A [Page 2] B".toList) 2 (by decide)
      ("page1".toList, "[Page 1] A".toList) (by decide)⟩

/-- Claim C9: the compositor on an empty input list returns `None` before
entering its `try` block: no image is opened, no canvas is built, and no
output file is written. -/
theorem C9_empty_input_returns_none (loadImage : List Char → Option PILImage)
    (out : List Char) :
    combine_images_vertical loadImage [] out = (none, []) := rfl

theorem foldl_max_init (l : List Nat) : ∀ init, init ≤ l.foldl Nat.max init := by
  induction l with
  | nil => intro init; exact Nat.le_refl _
  | cons a l ih =>
    intro init
    calc init ≤ Nat.max init a := Nat.le_max_left _ _
      _ ≤ l.foldl Nat.max (Nat.max init a) := ih _

theorem foldl_max_le (l : List Nat) : ∀ init, ∀ x ∈ l, x ≤ l.foldl Nat.max init := by
  induction l with
  | nil => intro _ x hx; simp at hx
  | cons a l ih =>
    intro init x hx
    rcases List.mem_cons.mp hx with h | h
    · subst h
      calc x ≤ Nat.max init x := Nat.le_max_right _ _
        _ ≤ l.foldl Nat.max (Nat.max init x) := foldl_max_init l _
    · exact ih (Nat.max init a) x h

theorem foldl_max_mem (l : List Nat) : ∀ init,
    l.foldl Nat.max init = init ∨ l.foldl Nat.max init ∈ l := by
  induction l with
  | nil => intro init; exact Or.inl rfl
  | cons a l ih =>
    intro init
    rcases ih (Nat.max init a) with h | h
    · rcases Nat.le_total init a with hle | hle
      · right
        simp only [List.foldl_cons, h]
        simp [Nat.max_eq_right hle]
      · left
        simp only [List.foldl_cons, h]
        simp [Nat.max_eq_left hle]
    · right
      simp only [List.foldl_cons]
      exact List.mem_cons_of_mem _ h

theorem pasteFold_eq (imgs : List PILImage) : ∀ acc y,
    (imgs.foldl (fun acc img => (acc.1 ++ [(img, 0, acc.2)], acc.2 + img.height))
        (acc, y)).1 = acc ++ buildPastes y imgs := by
  induction imgs with
  | nil => intro acc y; simp [buildPastes]
  | cons i l ih =>
    intro acc y
    simp only [List.foldl_cons, buildPastes]
    rw [ih]
    simp

theorem buildPastes_get (imgs : List PILImage) : ∀ y k,
    (buildPastes y imgs)[k]? =
      (imgs[k]?).map
        (fun img => (img, 0, y + ((imgs.take k).map PILImage.height).sum)) := by
  induction imgs with
  | nil => intro y k; simp [buildPastes]
  | cons i l ih =>
    intro y k
    cases k with
    | zero => simp [buildPastes]
    | succ k =>
      simp only [buildPastes, List.getElem?_cons_succ, List.take_succ_cons,
        List.map_cons, List.sum_cons]
      rw [ih]
      cases l[k]? with
      | none => rfl
      | some img =>
        simp only [Option.map_some', Option.some.injEq, Prod.mk.injEq,
          true_and]
        omega

theorem traverse_ne_nil {α β : Type} (f : α → Option β) (a : α) (l : List α)
    (r : List β) (h : traverseOption f (a :: l) = some r) : r ≠ [] := by
  simp only [traverseOption] at h
  cases hf : f a with
  | none => rw [hf] at h; simp at h
  | some b =>
    rw [hf] at h
    cases ht : traverseOption f l with
    | none => rw [ht] at h; simp at h
    | some bs =>
      rw [ht] at h
      simp only [Option.some.injEq] at h
      subst h
      simp

theorem combineCanvas_width_le (imgs : List PILImage) :
    ∀ w ∈ imgs.map PILImage.width, w ≤ (combineCanvas imgs).width := by
  intro w hw
  simpa [combineCanvas] using foldl_max_le (imgs.map PILImage.width) 0 w hw

theorem combineCanvas_width_mem (imgs : List PILImage) (h : imgs ≠ []) :
    (combineCanvas imgs).width ∈ imgs.map PILImage.width := by
  rcases foldl_max_mem (imgs.map PILImage.width) 0 with h0 | hm
  · cases hw : imgs.map PILImage.width with
    | nil =>
      simp only [List.map_eq_nil_iff] at hw
      exact absurd hw h
    | cons w ws =>
      have hwmem : w ∈ imgs.map PILImage.width := by
        rw [hw]; exact List.mem_cons_self _ _
      have hle := foldl_max_le (imgs.map PILImage.width) 0 w hwmem
      rw [h0] at hle
      have hw0 : w = 0 := Nat.le_zero.mp hle
      simp only [combineCanvas]
      rw [h0, ← hw0]
      exact List.mem_cons_self _ _
  · simpa [combineCanvas] using hm

theorem combineCanvas_pastes (imgs : List PILImage) (k : Nat) :
    ((combineCanvas imgs).pastes)[k]? =
      (imgs[k]?).map
        (fun img => (img, 0, ((imgs.take k).map PILImage.height).sum)) := by
  have h1 : (combineCanvas imgs).pastes = buildPastes 0 imgs := by
    simp only [combineCanvas, pasteFold]
    have := pasteFold_eq imgs [] 0
    simpa using this
  rw [h1, buildPastes_get]
  simp only [Nat.zero_add]

/-- Claim C3: on a non-empty input list whose images all load, the
compositor writes to the output path a canvas whose width is the maximum
input width, whose height is the sum of the input heights, and whose
`k`-th paste places the `k`-th input image, unscaled, at `x = 0` and
`y` = sum of the heights of the earlier inputs. -/
theorem C3_compositor_geometry (load : List Char → Option PILImage)
    (paths : List (List Char)) (out : List Char) (imgs : List PILImage)
    (hne : paths ≠ []) (hload : traverseOption load paths = some imgs) :
    combine_images_vertical load paths out = (some out, [(out, combineCanvas imgs)])
    ∧ (combineCanvas imgs).height = (imgs.map PILImage.height).sum
    ∧ (combineCanvas imgs).width ∈ imgs.map PILImage.width
    ∧ (∀ w ∈ imgs.map PILImage.width, w ≤ (combineCanvas imgs).width)
    ∧ ∀ k, ((combineCanvas imgs).pastes)[k]? =
        (imgs[k]?).map
          (fun img => (img, 0, ((imgs.take k).map PILImage.height).sum)) := by
  have himgs : imgs ≠ [] := by
    cases paths with
    | nil => exact absurd rfl hne
    | cons p ps => exact traverse_ne_nil load p ps imgs hload
  refine ⟨?_, rfl, combineCanvas_width_mem imgs himgs,
    combineCanvas_width_le imgs, fun k => combineCanvas_pastes imgs k⟩
  simp only [combine_images_vertical, if_neg hne, hload]

theorem C3_compositor_geometry_witness :
    combine_images_vertical exLoad exPaths ("final.png".toList) =
      (some ("final.png".toList), [("final.png".toList, combineCanvas exImages)])
    ∧ combineCanvas exImages =
      { width := 80, height := 450
        pastes := [(⟨50, 100⟩, 0, 0), (⟨80, 200⟩, 0, 100), (⟨60, 150⟩, 0, 300)] } :=
  ⟨(C3_compositor_geometry exLoad exPaths ("final.png".toList) exImages
      (by decide) (by decide)).1, by decide⟩

theorem lastAfter_append {Img : Type} (es' : List (GenEvent Img)) :
    ∀ (last : Option Img) (es : List (GenEvent Img)),
    lastAfter last (es ++ es') = lastAfter (lastAfter last es) es' := by
  intro last es
  induction es generalizing last with
  | nil => rfl
  | cons e es ih =>
    cases e with
    | request p pr g => simpa [lastAfter] using ih last
    | success p img => simpa [lastAfter] using ih (some img)

theorem groundedFrom_cons_req {Img : Type} {last g : Option Img} {p : Nat}
    {pr : List Char} {es : List (GenEvent Img)} :
    GroundedFrom last (GenEvent.request p pr g :: es) ↔
      g = last ∧ GroundedFrom last es :=
  Iff.rfl

theorem groundedFrom_cons_succ {Img : Type} {last : Option Img} {p : Nat}
    {img : Img} {es : List (GenEvent Img)} :
    GroundedFrom last (GenEvent.success p img :: es) ↔
      GroundedFrom (some img) es :=
  Iff.rfl

theorem lastAfter_cons_req {Img : Type} {last g : Option Img} {p : Nat}
    {pr : List Char} {es : List (GenEvent Img)} :
    lastAfter last (GenEvent.request p pr g :: es) = lastAfter last es :=
  rfl

theorem lastAfter_cons_succ {Img : Type} {last : Option Img} {p : Nat}
    {img : Img} {es : List (GenEvent Img)} :
    lastAfter last (GenEvent.success p img :: es) = lastAfter (some img) es :=
  rfl

theorem groundedFrom_append {Img : Type} (es es' : List (GenEvent Img)) :
    ∀ last : Option Img,
    GroundedFrom last (es ++ es') ↔
      GroundedFrom last es ∧ GroundedFrom (lastAfter last es) es' := by
  induction es with
  | nil => intro last; simp [GroundedFrom, lastAfter]
  | cons e es ih =>
    intro last
    cases e with
    | request p pr g =>
      rw [List.cons_append, groundedFrom_cons_req, groundedFrom_cons_req,
        ih last, lastAfter_cons_req]
      tauto
    | success p img =>
      rw [List.cons_append, groundedFrom_cons_succ, groundedFrom_cons_succ,
        ih (some img), lastAfter_cons_succ]

theorem pageStep_invariant {Img Bytes : Type} (pages : List (List Char × List Char))
    (send : Nat → Except (List Char) (List (Option Bytes)))
    (decodeImg : Bytes → Option Img) (theme : List Char) (st : GenState Img)
    (i : Nat) (h1 : GroundedFrom none st.events)
    (h2 : st.pils.getLast? = lastAfter none st.events) :
    GroundedFrom none (pageStep pages send decodeImg theme st i).events
    ∧ (pageStep pages send decodeImg theme st i).pils.getLast? =
        lastAfter none (pageStep pages send decodeImg theme st i).events := by
  cases hlk : dictLookup (pageKey i) pages with
  | none =>
    simp only [pageStep, hlk]
    exact ⟨h1, h2⟩
  | some prompt =>
    have hg1 : GroundedFrom none
        (st.events ++ [GenEvent.request i prompt st.pils.getLast?]) := by
      rw [groundedFrom_append]
      exact ⟨h1, ⟨h2, trivial⟩⟩
    have hg2 : lastAfter none
        (st.events ++ [GenEvent.request i prompt st.pils.getLast?]) =
        lastAfter none st.events := by
      rw [lastAfter_append]
      rfl
    cases hs : send i with
    | error e =>
      simp only [pageStep, hlk, hs]
      exact ⟨hg1, by rw [hg2]; exact h2⟩
    | ok parts =>
      cases hfi : firstInline parts with
      | none =>
        simp only [pageStep, hlk, hs, hfi]
        exact ⟨hg1, by rw [hg2]; exact h2⟩
      | some bytes =>
        cases hd : decodeImg bytes with
        | none =>
          simp only [pageStep, hlk, hs, hfi, hd]
          exact ⟨hg1, by rw [hg2]; exact h2⟩
        | some img =>
          simp only [pageStep, hlk, hs, hfi, hd]
          constructor
          · rw [groundedFrom_append]
            exact ⟨hg1, trivial⟩
          · rw [lastAfter_append]
            simp [lastAfter, List.getLast?_concat]

theorem runGenLoop_grounded_aux {Img Bytes : Type}
    (pages : List (List Char × List Char))
    (send : Nat → Except (List Char) (List (Option Bytes)))
    (decodeImg : Bytes → Option Img) (theme : List Char) (l : List Nat) :
    ∀ st : GenState Img,
      GroundedFrom none st.events →
      st.pils.getLast? = lastAfter none st.events →
      GroundedFrom none (l.foldl (pageStep pages send decodeImg theme) st).events
      ∧ (l.foldl (pageStep pages send decodeImg theme) st).pils.getLast? =
          lastAfter none (l.foldl (pageStep pages send decodeImg theme) st).events := by
  induction l with
  | nil => intro st h1 h2; exact ⟨h1, h2⟩
  | cons i l ih =>
    intro st h1 h2
    have h := pageStep_invariant pages send decodeImg theme st i h1 h2
    simpa using ih _ h.1 h.2

/-- Claim C1: in the per-page generation loop, reading the event trace in
order, every image request carries as grounding exactly the most recently
rendered page's image — `none` before the first successful render (so the
first successful page is generated ungrounded), and unchanged across
failed pages, since only a success event updates the reference. -/
theorem C1_grounding_follows_last_success {Img Bytes : Type}
    (pages : List (List Char × List Char))
    (send : Nat → Except (List Char) (List (Option Bytes)))
    (decodeImg : Bytes → Option Img) (theme : List Char) (numPages : Nat) :
    GroundedFrom none (runGenLoop pages send decodeImg theme numPages).events :=
  (runGenLoop_grounded_aux pages send decodeImg theme (List.range' 1 numPages)
    (initGenState Img) trivial rfl).1

theorem pageStep_not_in_script {Img Bytes : Type}
    (pages : List (List Char × List Char))
    (send : Nat → Except (List Char) (List (Option Bytes)))
    (decodeImg : Bytes → Option Img) (theme : List Char) (st : GenState Img)
    (i : Nat) (h : dictLookup (pageKey i) pages = none) :
    pageStep pages send decodeImg theme st i = st := by
  simp [pageStep, h]

theorem runGenLoop_empty_script {Img Bytes : Type}
    (send : Nat → Except (List Char) (List (Option Bytes)))
    (decodeImg : Bytes → Option Img) (theme : List Char) (n : Nat) :
    runGenLoop ([] : List (List Char × List Char)) send decodeImg theme n =
      initGenState Img := by
  show (List.range' 1 n).foldl (pageStep [] send decodeImg theme) (initGenState Img) =
    initGenState Img
  generalize List.range' 1 n = l
  induction l with
  | nil => rfl
  | cons i l ih =>
    rw [List.foldl_cons, pageStep_not_in_script [] send decodeImg theme _ i rfl]
    exact ih

/-- Claim C4: after a successful plot call, if the generation loop ends
with zero saved page images the endpoint raises the empty-result failure
`"Failed to generate any images."` and performs no compositing write (no
final artifact); if at least one page rendered, that failure is not raised
and the endpoint returns the final artifact path. -/
theorem C4_empty_result_failure {Img Bytes : Type} (O : EndpointOracles Img Bytes)
    (theme context : List Char) (ag : AgeGroup) (n : Nat) (plotText : List Char)
    (hplot : O.plotCall = .ok plotText) :
    ((runGenLoop (split_pages plotText) O.send O.decodeImg theme n).imageFiles = [] →
      (generate_comic_endpoint O theme context ag n).respOutcome = .error failMsg
      ∧ (generate_comic_endpoint O theme context ag n).combineWrites = [])
    ∧ ((runGenLoop (split_pages plotText) O.send O.decodeImg theme n).imageFiles ≠ [] →
      (generate_comic_endpoint O theme context ag n).respOutcome =
        .ok (finalPath theme ag)) := by
  constructor
  · intro h
    constructor <;> simp [generate_comic_endpoint, hplot, h]
  · intro h
    simp [generate_comic_endpoint, hplot, h]

theorem C4_empty_result_failure_witness :
    ((generate_comic_endpoint exOracleNoPages ("t".toList) [] AgeGroup.kid 2).respOutcome
        = .error failMsg
      ∧ (generate_comic_endpoint exOracleNoPages ("t".toList) [] AgeGroup.kid 2).combineWrites
        = [])
    ∧ (generate_comic_endpoint exOracleOnePage ("t".toList) [] AgeGroup.kid 1).respOutcome
        = .ok (finalPath ("t".toList) AgeGroup.kid) :=
  ⟨(C4_empty_result_failure exOracleNoPages ("t".toList) [] AgeGroup.kid 2
      ("no markers here".toList) rfl).1 (by decide),
   (C4_empty_result_failure exOracleOnePage ("t".toList) [] AgeGroup.kid 1
      ("[Page 1] A".toList) rfl).2 (by decide)⟩

/-- Claim C5 describes intended behaviour the code does not implement:
when compositing fails on a non-empty input (here: the intermediate file
is unreadable, `Image.open` raises), `combine_images_vertical` catches the
exception and returns `None`, the endpoint ignores that return value, and
the request still completes with `FileResponse(final_path)` as if
compositing had succeeded — even though nothing was written to
`final_path`. -/
theorem C5_composition_failure_swallowed :
    combine_images_vertical (fun _ => none)
        [pageFilePath ("t".toList) 1] (finalPath ("t".toList) AgeGroup.kid) = (none, [])
    ∧ (generate_comic_endpoint exOracleBadFS ("t".toList) [] AgeGroup.kid 1).respOutcome
        = .ok (finalPath ("t".toList) AgeGroup.kid)
    ∧ (generate_comic_endpoint exOracleBadFS ("t".toList) [] AgeGroup.kid 1).combineWrites
        = [] := by
  refine ⟨by decide, by rfl, by rfl⟩

/-- Claim C6 is false for the empty-text case: with a plot call returning
empty text, the endpoint raises no planning failure; it creates the image
chat session (execution passes planning) and the eventual failure is the
empty-result failure raised after the generation loop. -/
theorem C6_counterexample_empty_text :
    exOracleEmptyPlot.plotCall = .ok []
    ∧ (generate_comic_endpoint exOracleEmptyPlot ("t".toList) [] AgeGroup.kid 3).sessionCreated
        = true
    ∧ (generate_comic_endpoint exOracleEmptyPlot ("t".toList) [] AgeGroup.kid 3).respOutcome
        = .error failMsg := by
  refine ⟨rfl, by rfl, by rfl⟩

/-- Claim C6 (amended): if the plot call raises, the failure propagates to
the caller before the image session is created and no image generation is
attempted.  If the plot call returns empty text, the parsed script is
empty and the generation loop issues no requests, but the session is still
created and the request fails with the empty-result failure, not a
planning failure. -/
theorem C6_amended_planning_failure {Img Bytes : Type}
    (O : EndpointOracles Img Bytes) (theme context : List Char) (ag : AgeGroup)
    (n : Nat) :
    (∀ msg, O.plotCall = .error msg →
      (generate_comic_endpoint O theme context ag n).respOutcome = .error msg
      ∧ (generate_comic_endpoint O theme context ag n).sessionCreated = false
      ∧ (generate_comic_endpoint O theme context ag n).genEvents = [])
    ∧ (O.plotCall = .ok [] →
      (generate_comic_endpoint O theme context ag n).sessionCreated = true
      ∧ (generate_comic_endpoint O theme context ag n).genEvents = []
      ∧ (generate_comic_endpoint O theme context ag n).respOutcome = .error failMsg) := by
  constructor
  · intro msg hmsg
    refine ⟨?_, ?_, ?_⟩ <;> simp [generate_comic_endpoint, hmsg]
  · intro hok
    have hsplit : split_pages ([] : List Char) = [] := rfl
    have hloop := @runGenLoop_empty_script Img Bytes O.send O.decodeImg theme n
    refine ⟨?_, ?_, ?_⟩ <;>
      simp [generate_comic_endpoint, hok, hsplit, hloop, initGenState]

theorem C6_amended_planning_failure_witness :
    ((@generate_comic_endpoint Nat Nat
        ⟨.error ("boom".toList), exSendOK, some, fun _ => none⟩
        ("t".toList) [] AgeGroup.kid 2).respOutcome = .error ("boom".toList))
    ∧ ((generate_comic_endpoint exOracleEmptyPlot ("t".toList) [] AgeGroup.kid 2).genEvents
        = []
      ∧ (generate_comic_endpoint exOracleEmptyPlot ("t".toList) [] AgeGroup.kid 2).respOutcome
        = .error failMsg) :=
  ⟨((C6_amended_planning_failure
      ⟨.error ("boom".toList), exSendOK, some, fun _ => none⟩
      ("t".toList) [] AgeGroup.kid 2).1 ("boom".toList) rfl).1,
   ⟨((C6_amended_planning_failure exOracleEmptyPlot
      ("t".toList) [] AgeGroup.kid 2).2 rfl).2.1,
    ((C6_amended_planning_failure exOracleEmptyPlot
      ("t".toList) [] AgeGroup.kid 2).2 rfl).2.2⟩⟩

theorem natStrGo_head (fuel : Nat) : ∀ n acc, 1 ≤ n → n < fuel →
    ∃ c t, natStrGo fuel n acc = c :: t ∧ c ≠ '0' := by
  induction fuel with
  | zero => intro n acc h1 h2; omega
  | succ fuel ih =>
    intro n acc h1 h2
    have hne : n ≠ 0 := by omega
    simp only [natStrGo, if_neg hne]
    by_cases h10 : n / 10 = 0
    · have hn10 : n < 10 := by omega
      have hzero : ∀ (f : Nat) (acc' : List Char), natStrGo f 0 acc' = acc' := by
        intro f acc'
        cases f <;> simp [natStrGo]
      rw [h10, hzero]
      refine ⟨digitChar (n % 10), acc, rfl, ?_⟩
      have hmod : n % 10 = n := Nat.mod_eq_of_lt hn10
      rw [hmod]
      interval_cases n <;> decide
    · have hlt : n / 10 < fuel := by
        have := Nat.div_lt_self (show 0 < n by omega) (show 1 < 10 by omega)
        omega
      exact ih (n / 10) _ (by omega) hlt

theorem natStr_head_ne_zero (i : Nat) (hi : 1 ≤ i) :
    ∃ c t, natStr i = c :: t ∧ c ≠ '0' := by
  have hne : i ≠ 0 := by omega
  simp only [natStr, if_neg hne]
  exact natStrGo_head (i + 1) i [] hi (by omega)

/-- Claim C10: marker numbers are kept as raw digit strings.  A leading
zero marker such as `[Page 01]` yields the key `"page01"`, while the loop
looks up `"page" + str(i)` whose decimal rendering never starts with `'0'`
for `i ≥ 1`, so the two keys always differ and the loop treats such a
page as absent: its `pageStep` leaves the state untouched, issuing no
image request. -/
theorem C10_leading_zero_keys_skipped :
    (dictLookup (pageKey 1) (split_pages ("[Page 01] Intro".toList)) = none
      ∧ keyList ("[Page 01] Intro".toList) = ["page01".toList]
      ∧ (@runGenLoop Nat Nat
          (split_pages ("[Page 01] Intro".toList)) exSendOK some ("t".toList) 1).events = [])
    ∧ (∀ i : Nat, 1 ≤ i → ∀ ds : List Char, ds.head? = some '0' →
        pageTag ++ ds ≠ pageKey i)
    ∧ (∀ (Img Bytes : Type) (pages : List (List Char × List Char))
        (send : Nat → Except (List Char) (List (Option Bytes)))
        (dec : Bytes → Option Img) (theme : List Char) (st : GenState Img) (i : Nat),
        dictLookup (pageKey i) pages = none →
        pageStep pages send dec theme st i = st) := by
  refine ⟨by decide, ?_, ?_⟩
  · intro i hi ds hds heq
    have hds' : ds = natStr i := by
      simpa [pageKey, pageTag] using heq
    obtain ⟨c, t, hct, hc⟩ := natStr_head_ne_zero i hi
    rw [hds', hct] at hds
    simp only [List.head?_cons, Option.some.injEq] at hds
    exact hc hds
  · intro Img Bytes pages send dec theme st i h
    exact pageStep_not_in_script pages send dec theme st i h

theorem C10_leading_zero_keys_skipped_witness :
    (pageTag ++ ['0', '1'] ≠ pageKey 1)
    ∧ @pageStep Nat Nat
        (split_pages ("[Page 01] Intro".toList)) exSendOK some ("t".toList)
        (initGenState Nat) 1 = initGenState Nat :=
  ⟨C10_leading_zero_keys_skipped.2.1 1 (by decide) ['0', '1'] (by decide),
   C10_leading_zero_keys_skipped.2.2 Nat Nat
     (split_pages ("[Page 01] Intro".toList)) exSendOK some ("t".toList)
     (initGenState Nat) 1 (by decide)⟩

theorem matchMarkerTail_append (t r d u : List Char)
    (h : matchMarkerTail t = some (d, u)) :
    matchMarkerTail (t ++ r) = some (d, u ++ r) := by
  unfold matchMarkerTail at h
  by_cases h1 : t.takeWhile pyWhitespace = []
  · rw [if_pos h1] at h
    exact absurd h (by simp)
  · rw [if_neg h1] at h
    by_cases h2 : (t.dropWhile pyWhitespace).takeWhile Char.isDigit = []
    · simp only [h2, if_pos rfl] at h
      exact absurd h (by simp)
    · simp only [if_neg h2] at h
      cases h3 : (t.dropWhile pyWhitespace).dropWhile Char.isDigit with
      | nil =>
        rw [h3] at h
        exact absurd h (by simp)
      | cons x rest =>
        rw [h3] at h
        split at h
        · rename_i rest2 heq
          have hx : x = ']' := by injection heq
          have hrest : rest = rest2 := by injection heq
          subst hx
          have hd : (t.dropWhile pyWhitespace).takeWhile Char.isDigit = d := by
            injection h with hh
            injection hh
          have hu : rest = u := by
            rw [hrest]
            injection h with hh
            injection hh
          have hr1ne : t.dropWhile pyWhitespace ≠ [] := by
            intro hh
            rw [hh] at h2
            exact h2 rfl
          have htne : ¬ (t ++ r).takeWhile pyWhitespace = [] := by
            cases t with
            | nil => simp [List.dropWhile] at hr1ne
            | cons c t' =>
              have hc : pyWhitespace c = true := takeWhile_ne_nil_head _ _ _ h1
              simp [List.takeWhile_cons, hc]
          have hdigitne : (t.dropWhile pyWhitespace).dropWhile Char.isDigit ≠ [] := by
            rw [h3]; simp
          simp only [matchMarkerTail, if_neg htne]
          rw [dropWhile_append_ne _ _ _ hr1ne, takeWhile_append_ne _ _ _ hdigitne,
            dropWhile_append_ne _ _ _ hdigitne, h3, if_neg h2, hd, hu]
          simp
        · exact absurd h (by simp)

theorem matchMarker_append (s r d u : List Char)
    (h : matchMarker s = some (d, u)) :
    matchMarker (s ++ r) = some (d, u ++ r) := by
  unfold matchMarker at h
  split at h
  · rename_i t
    show matchMarker ('[' :: 'P' :: 'a' :: 'g' :: 'e' :: (t ++ r)) = some (d, u ++ r)
    show matchMarkerTail (t ++ r) = some (d, u ++ r)
    exact matchMarkerTail_append t r d u h
  · exact absurd h (by simp)

theorem viableTail_of_matchTail (t r : List Char) (pr : List Char × List Char)
    (h : matchMarkerTail (t ++ r) = some pr) : viableTail t = true := by
  cases t with
  | nil => rfl
  | cons c t' =>
    simp only [matchMarkerTail] at h
    by_cases h1 : ((c :: t') ++ r).takeWhile pyWhitespace = []
    · rw [if_pos h1] at h
      exact absurd h (by simp)
    · rw [if_neg h1] at h
      have hc : pyWhitespace c = true := by
        by_contra hc
        rw [Bool.not_eq_true] at hc
        simp only [List.cons_append, List.takeWhile_cons, hc] at h1
        simp at h1
      have h1t : (c :: t').takeWhile pyWhitespace ≠ [] := by
        simp [List.takeWhile_cons, hc]
      cases hr1 : (c :: t').dropWhile pyWhitespace with
      | nil =>
        simp [viableTail, if_neg h1t, hr1, hc]
      | cons d r1' =>
        have hdw : ((c :: t') ++ r).dropWhile pyWhitespace = (d :: r1') ++ r := by
          rw [dropWhile_append_ne _ _ _ (by rw [hr1]; simp), hr1]
        by_cases h2 : (d :: r1').takeWhile Char.isDigit = []
        · have hdd : Char.isDigit d = false := by
            by_contra hdd
            rw [Bool.not_eq_false] at hdd
            simp [List.takeWhile_cons, hdd] at h2
          rw [hdw] at h
          simp only [List.cons_append, List.takeWhile_cons, hdd] at h
          simp at h
        · have hdig : Char.isDigit d = true := by
            cases hdig : Char.isDigit d
            · simp [List.takeWhile_cons, hdig] at h2
            · rfl
          cases h3 : (d :: r1').dropWhile Char.isDigit with
          | nil =>
            simp [viableTail, if_neg h1t, hr1, if_neg h2, h3, hc, hdig]
          | cons x rest =>
            by_cases hx : x = ']'
            · subst hx
              simp [viableTail, if_neg h1t, hr1, if_neg h2, h3, hc, hdig]
            · exfalso
              rw [hdw] at h
              have h2' : ¬ ((d :: r1') ++ r).takeWhile Char.isDigit = [] := by
                simp [List.cons_append, List.takeWhile_cons, hdig]
              have h3' : ((d :: r1') ++ r).dropWhile Char.isDigit = (x :: rest) ++ r := by
                rw [dropWhile_append_ne _ _ _ (by rw [h3]; simp), h3]
              rw [if_neg h2', h3'] at h
              split at h
              · rename_i heq
                exact hx (by injection heq)
              · exact absurd h (by simp)

theorem markerViable_of_match (s r : List Char) (pr : List Char × List Char)
    (h : matchMarker (s ++ r) = some pr) : markerViable s = true := by
  rcases s with _ | ⟨c1, _ | ⟨c2, _ | ⟨c3, _ | ⟨c4, _ | ⟨c5, t⟩⟩⟩⟩⟩
  · rfl
  · unfold matchMarker at h
    split at h
    · rename_i t' heq
      have h1 : c1 = '[' := by injection heq
      subst h1
      rfl
    · exact absurd h (by simp)
  · unfold matchMarker at h
    split at h
    · rename_i t' heq
      have h1 : c1 = '[' := by injection heq
      have heq2 : c2 :: r = 'P' :: 'a' :: 'g' :: 'e' :: t' := by injection heq
      have h2 : c2 = 'P' := by injection heq2
      subst h1; subst h2
      rfl
    · exact absurd h (by simp)
  · unfold matchMarker at h
    split at h
    · rename_i t' heq
      have h1 : c1 = '[' := by injection heq
      have heq2 : c2 :: c3 :: r = 'P' :: 'a' :: 'g' :: 'e' :: t' := by injection heq
      have h2 : c2 = 'P' := by injection heq2
      have heq3 : c3 :: r = 'a' :: 'g' :: 'e' :: t' := by injection heq2
      have h3 : c3 = 'a' := by injection heq3
      subst h1; subst h2; subst h3
      rfl
    · exact absurd h (by simp)
  · unfold matchMarker at h
    split at h
    · rename_i t' heq
      have h1 : c1 = '[' := by injection heq
      have heq2 : c2 :: c3 :: c4 :: r = 'P' :: 'a' :: 'g' :: 'e' :: t' := by injection heq
      have h2 : c2 = 'P' := by injection heq2
      have heq3 : c3 :: c4 :: r = 'a' :: 'g' :: 'e' :: t' := by injection heq2
      have h3 : c3 = 'a' := by injection heq3
      have heq4 : c4 :: r = 'g' :: 'e' :: t' := by injection heq3
      have h4 : c4 = 'g' := by injection heq4
      subst h1; subst h2; subst h3; subst h4
      rfl
    · exact absurd h (by simp)
  · unfold matchMarker at h
    split at h
    · rename_i t' heq
      have h1 : c1 = '[' := by injection heq
      have heq2 : c2 :: c3 :: c4 :: c5 :: (t ++ r) = 'P' :: 'a' :: 'g' :: 'e' :: t' := by
        injection heq
      have h2 : c2 = 'P' := by injection heq2
      have heq3 : c3 :: c4 :: c5 :: (t ++ r) = 'a' :: 'g' :: 'e' :: t' := by injection heq2
      have h3 : c3 = 'a' := by injection heq3
      have heq4 : c4 :: c5 :: (t ++ r) = 'g' :: 'e' :: t' := by injection heq3
      have h4 : c4 = 'g' := by injection heq4
      have heq5 : c5 :: (t ++ r) = 'e' :: t' := by injection heq4
      have h5 : c5 = 'e' := by injection heq5
      have ht : t ++ r = t' := by injection heq5
      subst h1; subst h2; subst h3; subst h4; subst h5
      rw [← ht] at h
      show viableTail t = true
      exact viableTail_of_matchTail t r pr h
    · exact absurd h (by simp)

theorem splitAux_no_cut (tl : List Char) : ∀ (acc rest : List Char),
    (∀ p, p < tl.length → matchMarker (tl.drop p ++ rest) = none) →
    splitAux acc (tl ++ rest) = splitAux (tl.reverseAux acc) rest := by
  induction tl with
  | nil => intro acc rest _; rfl
  | cons c tl ih =>
    intro acc rest h
    have h0 : matchMarker (c :: (tl ++ rest)) = none := by
      have := h 0 (by simp)
      simpa using this
    show splitAux acc (c :: (tl ++ rest)) = _
    rw [splitAux, h0]
    simp only [Option.isSome_none, Bool.false_eq_true, if_false]
    exact ih (c :: acc) rest (fun p hp => by
      have := h (p + 1) (by simpa using Nat.succ_lt_succ hp)
      simpa using this)

theorem splitAux_block (v : List Char) (hne : v ≠ [])
    (hmk : (matchMarker v).isSome = true)
    (hint : ∀ p, 1 ≤ p → p < v.length → markerViable (v.drop p) = false) :
    ∀ acc rest, splitAux acc (v ++ rest) = acc.reverse :: splitAux v.reverse rest := by
  obtain ⟨⟨d, u⟩, hdu⟩ := Option.isSome_iff_exists.mp hmk
  cases v with
  | nil => exact absurd rfl hne
  | cons c v' =>
    intro acc rest
    have hcut : (matchMarker ((c :: v') ++ rest)).isSome = true := by
      rw [matchMarker_append _ rest d u hdu]
      rfl
    show splitAux acc (c :: (v' ++ rest)) = _
    rw [splitAux]
    rw [show matchMarker (c :: (v' ++ rest)) = matchMarker ((c :: v') ++ rest) from rfl,
      hcut]
    simp only [if_true]
    have hwalk := splitAux_no_cut v' [c] rest (fun p hp => by
      cases hmm : matchMarker (v'.drop p ++ rest) with
      | none => rfl
      | some pr =>
        have hv : markerViable (v'.drop p) = true :=
          markerViable_of_match (v'.drop p) rest pr hmm
        have hf := hint (p + 1) (by omega)
          (by simpa using Nat.succ_lt_succ hp)
        rw [show (c :: v').drop (p + 1) = v'.drop p from rfl] at hf
        rw [hv] at hf
        cases hf)
    rw [hwalk]
    have : v'.reverseAux [c] = (c :: v').reverse := by
      rw [List.reverseAux_eq, List.reverse_cons]
    rw [this]

theorem splitAux_chain (vs : List (List Char)) :
    (∀ v ∈ vs, v ≠ [] ∧ (matchMarker v).isSome = true ∧
      ∀ p, 1 ≤ p → p < v.length → markerViable (v.drop p) = false) →
    ∀ acc, splitAux acc vs.flatten = acc.reverse :: vs := by
  induction vs with
  | nil => intro _ acc; rfl
  | cons v vs ih =>
    intro h acc
    obtain ⟨h1, h2, h3⟩ := h v (List.mem_cons_self _ _)
    rw [List.flatten_cons, splitAux_block v h1 h2 h3 acc vs.flatten,
      ih (fun w hw => h w (List.mem_cons_of_mem _ hw)) v.reverse,
      List.reverse_reverse]

theorem reSplit_join (vs : List (List Char))
    (h : ∀ v ∈ vs, v ≠ [] ∧ (matchMarker v).isSome = true ∧
      ∀ p, 1 ≤ p → p < v.length → markerViable (v.drop p) = false) :
    reSplitMarkers vs.flatten = [] :: vs :=
  splitAux_chain vs h []

theorem dropWhile_head_false {α : Type} (p : α → Bool) (l : List α) :
    ∀ c t, l.dropWhile p = c :: t → p c = false := by
  induction l with
  | nil => intro c t h; simp [List.dropWhile] at h
  | cons a l ih =>
    intro c t h
    by_cases ha : p a
    · rw [List.dropWhile_cons, if_pos ha] at h
      exact ih c t h
    · rw [List.dropWhile_cons, if_neg ha] at h
      have h1 : a = c := by injection h
      subst h1
      simpa using ha

theorem dropWhile_dropWhile {α : Type} (p : α → Bool) (l : List α) :
    (l.dropWhile p).dropWhile p = l.dropWhile p := by
  cases h : l.dropWhile p with
  | nil => rfl
  | cons c t =>
    simp [List.dropWhile_cons, dropWhile_head_false p l c t h]

theorem length_dropWhile_le {α : Type} (p : α → Bool) (l : List α) :
    (l.dropWhile p).length ≤ l.length := by
  induction l with
  | nil => simp
  | cons a l ih =>
    by_cases ha : p a
    · rw [List.dropWhile_cons, if_pos ha]
      exact Nat.le_trans ih (Nat.le_succ _)
    · rw [List.dropWhile_cons, if_neg ha]

theorem dropWhile_fixed_head_false {α : Type} (p : α → Bool) (c : α) (t : List α)
    (h : (c :: t).dropWhile p = c :: t) : p c = false := by
  by_cases hc : p c
  · exfalso
    rw [List.dropWhile_cons, if_pos hc] at h
    have := length_dropWhile_le p t
    rw [h] at this
    simp at this
  · simpa using hc

theorem pyStrip_idem (l : List Char) : pyStrip (pyStrip l) = pyStrip l := by
  have hA : ((l.dropWhile pyWhitespace).reverse.dropWhile pyWhitespace).dropWhile pyWhitespace
      = (l.dropWhile pyWhitespace).reverse.dropWhile pyWhitespace :=
    dropWhile_dropWhile pyWhitespace (l.dropWhile pyWhitespace).reverse
  have hB : (((l.dropWhile pyWhitespace).reverse.dropWhile pyWhitespace).reverse).dropWhile
      pyWhitespace
      = ((l.dropWhile pyWhitespace).reverse.dropWhile pyWhitespace).reverse := by
    cases hyr : ((l.dropWhile pyWhitespace).reverse.dropWhile pyWhitespace).reverse with
    | nil => rfl
    | cons c t =>
      have h1 : (l.dropWhile pyWhitespace).reverse.takeWhile pyWhitespace ++
          (l.dropWhile pyWhitespace).reverse.dropWhile pyWhitespace =
          (l.dropWhile pyWhitespace).reverse :=
        List.takeWhile_append_dropWhile pyWhitespace (l.dropWhile pyWhitespace).reverse
      have h2 := congrArg List.reverse h1
      rw [List.reverse_append, List.reverse_reverse, hyr] at h2
      have hxfix : (l.dropWhile pyWhitespace).dropWhile pyWhitespace =
          l.dropWhile pyWhitespace :=
        dropWhile_dropWhile pyWhitespace l
      rw [← h2, List.cons_append] at hxfix
      have hc : pyWhitespace c = false :=
        dropWhile_fixed_head_false pyWhitespace c _ hxfix
      rw [List.dropWhile_cons, hc]
      simp
  unfold pyStrip
  rw [hB, List.reverse_reverse, hA]

theorem dictLookup_append (k : List Char) (d1 d2 : List (List Char × List Char)) :
    dictLookup k (d1 ++ d2) = orO (dictLookup k d1) (dictLookup k d2) := by
  induction d1 with
  | nil => simp [dictLookup, orO]
  | cons e d1 ih =>
    obtain ⟨a, b⟩ := e
    by_cases ha : a = k
    · simp [dictLookup, ha, orO]
    · simp [dictLookup, ha, ih]

theorem insertEntries_fresh (es : List (List Char × List Char)) :
    ∀ d, (es.map Prod.fst).Nodup → (∀ e ∈ es, dictLookup e.1 d = none) →
    insertEntries es d = d ++ es := by
  induction es with
  | nil => intro d _ _; simp [insertEntries]
  | cons e es ih =>
    intro d hnd hfresh
    have hstep : insertEntries (e :: es) d = insertEntries es (dictInsert e.1 e.2 d) := rfl
    rw [hstep, dictInsert_fresh e.1 e.2 d (hfresh e (List.mem_cons_self _ _))]
    have hnd' : (es.map Prod.fst).Nodup := by
      simp only [List.map_cons, List.nodup_cons] at hnd
      exact hnd.2
    have hkey : e.1 ∉ es.map Prod.fst := by
      simp only [List.map_cons, List.nodup_cons] at hnd
      exact hnd.1
    rw [ih (d ++ [(e.1, e.2)]) hnd' (fun e' he' => by
      rw [dictLookup_append, hfresh e' (List.mem_cons_of_mem _ he')]
      have hne : e.1 ≠ e'.1 := by
        intro hcontra
        exact hkey (hcontra ▸ List.mem_map_of_mem Prod.fst he')
      simp [orO, dictLookup, hne])]
    simp

theorem insertEntries_id (es : List (List Char × List Char))
    (h : (es.map Prod.fst).Nodup) : insertEntries es [] = es := by
  simpa using insertEntries_fresh es [] h (fun e _ => rfl)

theorem blockEntry_some (b : List Char) (e : List Char × List Char)
    (h : blockEntry b = some e) :
    pyStrip b ≠ [] ∧ ∃ d t, matchMarker (pyStrip b) = some (d, t) ∧
      e = (pageTag ++ d, pyStrip b) := by
  by_cases hb : pyStrip b = []
  · simp [blockEntry, hb] at h
  · refine ⟨hb, ?_⟩
    cases hm : matchMarker (pyStrip b) with
    | none => simp [blockEntry, hb, hm] at h
    | some dt =>
      obtain ⟨d, t⟩ := dt
      refine ⟨d, t, rfl, ?_⟩
      simp only [blockEntry, hb, if_neg hb, hm, if_false, Option.some.injEq] at h
      exact h.symm

theorem entry_self (text : List Char) (e : List Char × List Char)
    (he : e ∈ splitEntries text) : blockEntry e.2 = some e := by
  obtain ⟨b, hb, hbe⟩ := List.mem_filterMap.mp he
  obtain ⟨hne, d, t, hm, hee⟩ := blockEntry_some b e hbe
  have hidem := pyStrip_idem b
  subst hee
  simp only [blockEntry, hidem, hne, if_neg hne, hm, if_false]

theorem filterMap_snd_self (es : List (List Char × List Char)) :
    (∀ e ∈ es, blockEntry e.2 = some e) →
    (es.map Prod.snd).filterMap blockEntry = es := by
  induction es with
  | nil => intro _; rfl
  | cons e es ih =>
    intro h
    rw [List.map_cons, List.filterMap_cons, h e (List.mem_cons_self _ _),
      ih (fun e' he' => h e' (List.mem_cons_of_mem _ he'))]

/-- Claim C8: page-splitting is idempotent on well-formed input.  If every
block of the text is blank or consists (after stripping) of a leading
`[Page N]` marker with no embedded marker start, and the blocks carry
pairwise distinct keys, then re-splitting the concatenation of the parsed
blocks reproduces exactly the same page mapping. -/
theorem C8_resplit_idempotent (text : List Char)
    (h1 : ∀ b ∈ reSplitMarkers text, goodBlock b = true)
    (h2 : (keyList text).Nodup) :
    split_pages (((split_pages text).map Prod.snd).flatten) = split_pages text := by
  have hkeys : ((splitEntries text).map Prod.fst).Nodup := h2
  have hsp : split_pages text = splitEntries text := by
    rw [split_pages_eq, insertEntries_id _ hkeys]
  have hprops : ∀ v ∈ (splitEntries text).map Prod.snd,
      v ≠ [] ∧ (matchMarker v).isSome = true ∧
      ∀ p, 1 ≤ p → p < v.length → markerViable (v.drop p) = false := by
    intro v hv
    obtain ⟨e, he, hev⟩ := List.mem_map.mp hv
    obtain ⟨b, hb, hbe⟩ := List.mem_filterMap.mp he
    obtain ⟨hne, d, t, hm, hee⟩ := blockEntry_some b e hbe
    have hvps : v = pyStrip b := by rw [← hev, hee]
    subst hvps
    have hgb := h1 b hb
    simp only [goodBlock, Bool.or_eq_true, Bool.and_eq_true,
      decide_eq_true_eq] at hgb
    rcases hgb with hgb | ⟨hgb1, hgb2⟩
    · exact absurd hgb hne
    · refine ⟨hne, by rw [hm]; rfl, ?_⟩
      intro p hp1 hp2
      simp only [interiorNonViable] at hgb2
      have hall := List.all_eq_true.mp hgb2 p (List.mem_range.mpr hp2)
      simp only [Bool.or_eq_true, decide_eq_true_eq, Bool.not_eq_true'] at hall
      rcases hall with h0 | hmv
      · omega
      · exact hmv
  have hjoin := reSplit_join ((splitEntries text).map Prod.snd) hprops
  rw [hsp, split_pages_eq]
  have hentries : splitEntries (((splitEntries text).map Prod.snd).flatten) =
      splitEntries text := by
    show (reSplitMarkers (((splitEntries text).map Prod.snd).flatten)).filterMap blockEntry
        = splitEntries text
    rw [hjoin, List.filterMap_cons]
    simp only [show blockEntry [] = none from rfl]
    exact filterMap_snd_self _ (fun e he => entry_self text e he)
  rw [hentries, insertEntries_id _ hkeys]

theorem C8_resplit_idempotent_witness :
    split_pages
        (((split_pages ("[Page 1] Alpha\n[Page 2] Beta".toList)).map Prod.snd).flatten)
      = split_pages ("[Page 1] Alpha\n[Page 2] Beta".toList) :=
  C8_resplit_idempotent ("[Page 1] Alpha\n[Page 2] Beta".toList) (by decide) (by decide)
